import Mathlib

/-!
Verification of the discovery-and-aggregation pipeline of the
sui_contributors service (src/main.rs).

The Rust source is shallowly embedded: every outbound HTTP interaction is
modelled as an oracle argument (a list of page bodies, or a function from a
repository name to its responses), machine integers (u32) are modelled as
Nat with explicit reduction modulo 2^32 at every point where the Rust code
performs u32 arithmetic, and fallible code returns Except.  A sequence of
pages is modelled as a List, with the convention that the upstream endpoint
returns an empty page for every index beyond the end of the list (this is
how the pagination loops of the source terminate).
-/

/-- 2^32, the modulus of Rust u32 arithmetic. -/
def U32 : Nat := 4294967296

/-- Wrapping u32 addition, as performed by release-mode Rust on u32 values. -/
def u32add (a b : Nat) : Nat := (a + b) % U32

-- ------------------- Data model (structs of src/main.rs) -------------------

/-- Raw contributor record from the per-repository contributor listing
(struct Contributor).  contributions is a u32, so a parsed record always
satisfies contributions < U32. -/
structure Contributor where
  login : String
  avatar_url : String
  html_url : String
  contributions : Nat
deriving DecidableEq

/-- Per-login aggregate (struct UserResponse). -/
structure UserResponse where
  login : String
  avatar_url : String
  profile_url : String
  total_contributions : Nat
  repositories : List String
deriving DecidableEq

/-- A repository record as it appears on the wire in the per-account repos
listing.  The JSON payload carries a fork flag; the source only
deserializes full_name and html_url (struct Repository), so the flag is
recorded here to reason about fork filtering. -/
structure ApiRepo where
  full_name : String
  html_url : String
  fork : Bool
deriving DecidableEq

/-- struct Repository: the fields the source actually deserializes. -/
structure Repository where
  full_name : String
  html_url : String
deriving DecidableEq

/-- Deserialization of one repository record (serde drops unknown fields,
including the fork flag). -/
def parseRepo (r : ApiRepo) : Repository :=
  { full_name := r.full_name, html_url := r.html_url }

/-- struct CommitUserDetails. -/
structure CommitUserDetails where
  name : String
  email : String
deriving DecidableEq

/-- struct CommitDetails. -/
structure CommitDetails where
  author : CommitUserDetails
deriving DecidableEq

/-- struct CommitAuthor. -/
structure CommitAuthor where
  login : String
deriving DecidableEq

/-- struct Commit, one element of a commit-list page. -/
structure Commit where
  commit : CommitDetails
  author : Option CommitAuthor
deriving DecidableEq

/-- struct RepositoryWithCommits. -/
structure RepositoryWithCommits where
  repo_name : String
  repo_url : String
  commit_count : Nat
deriving DecidableEq

/-- struct UserMoveFilesResponse. -/
structure UserMoveFilesResponse where
  username : String
  has_move_files : Bool
  total_repositories : Nat
  total_commits : Nat
  repositories : List RepositoryWithCommits
deriving DecidableEq

-- ------------------- Stable descending sort -------------------

/-- Insert x into a list sorted descending by key; x goes before the first
element whose key is not greater.  Folding from the right gives exactly the
stable descending sort that Rust sort_by with comparator
(a, b) => b.key.cmp(a.key) produces. -/
def insDesc (key : α → Nat) (x : α) : List α → List α
  | [] => [x]
  | y :: ys => if key x < key y then y :: insDesc key x ys else x :: y :: ys

/-- Stable sort, descending by key: the embedding of
vec.sort_by(a, b => b.key.cmp(a.key)). -/
def sortDescBy (key : α → Nat) (l : List α) : List α :=
  l.foldr (insDesc key) []

/-- The list is sorted non-increasingly by key. -/
def SortedDescBy (key : α → Nat) (l : List α) : Prop :=
  l.Pairwise (fun a b => key b ≤ key a)

-- ------------------- String suffix test -------------------

/-- Embedding of Rust str::ends_with on the character sequence of the
string. -/
def strEndsWith (s suffix : String) : Bool :=
  suffix.data.isSuffixOf s.data

-- ------------------- HTTP response modelling -------------------

/-- Outcome of one outbound HTTP call: a 2xx success with a parsed body, a
non-success HTTP status, or a transport-level failure (the paths that the
question-marked send() calls of the source propagate as Err). -/
inductive HttpOutcome (α : Type) where
  | success (body : α)
  | failure (status : Nat)
  | transport (msg : String)
deriving DecidableEq

/-- One entry of the recursive git tree; item["path"].as_str() may be
absent, hence Option. -/
structure TreeEntry where
  path : Option String
deriving DecidableEq

/-- Repository metadata as consumed by repo_has_move_files:
repo_data["default_branch"].as_str(). -/
structure RepoMeta where
  default_branch : Option String
deriving DecidableEq

-- ------------------- repo_has_move_files -------------------

/-- Embedding of repo_has_move_files (src/main.rs lines 247 to 305).
repoResp is the response of the repository-metadata request; treeResp maps
a branch name to the response of the recursive-tree request for that
branch.  The tree body is None when tree_data["tree"] is missing or not an
array. -/
def repo_has_move_files (repoResp : HttpOutcome RepoMeta)
    (treeResp : String → HttpOutcome (Option (List TreeEntry))) :
    Except String Bool :=
  match repoResp with
  | .transport m => .error m
  | .failure _ => .ok false
  | .success meta =>
    let default_branch := meta.default_branch.getD "main"
    match treeResp default_branch with
    | .transport m => .error m
    | .failure _ => .ok false
    | .success none => .ok false
    | .success (some tree) =>
      .ok (tree.any (fun item =>
        match item.path with
        | some p => strEndsWith p ".move"
        | none => false))

-- ------------------- get_user_commit_count -------------------

/-- Response of one page of the author-filtered commit listing: a parsed
page of commits, a non-success HTTP status (the source breaks out of the
loop, keeping the accumulated count), or a transport or JSON-decoding
failure (propagated as Err by the question marks). -/
inductive CommitPage where
  | ok (commits : List Commit)
  | httpFail (status : Nat)
  | err (msg : String)
deriving DecidableEq

/-- The accumulation loop of get_user_commit_count: total_commits starts at
0 and each non-empty successful page adds commits.len() as u32 with
wrapping u32 addition; an empty page or a non-success status breaks the
loop. -/
def commitCountGo (acc : Nat) : List CommitPage → Except String Nat
  | [] => .ok acc
  | .err m :: _ => .error m
  | .httpFail _ :: _ => .ok acc
  | .ok [] :: _ => .ok acc
  | .ok cs :: rest => commitCountGo (u32add acc (cs.length % U32)) rest

/-- Embedding of get_user_commit_count (src/main.rs lines 307 to 349) for
one repository and author; pages is the sequence of responses of the
commit-list endpoint, page by page. -/
def get_user_commit_count (pages : List CommitPage) : Except String Nat :=
  commitCountGo 0 pages

-- ------------------- get_user_move_repos -------------------

/-- Step 1 of get_user_move_repos (lines 169 to 205): collect every page of
the per-account repository listing until an empty page; a non-success
status or transport failure aborts the whole function with Err. -/
def fetchAllUserRepos : List (Except String (List ApiRepo)) →
    Except String (List Repository)
  | [] => .ok []
  | .error m :: _ => .error m
  | .ok [] :: _ => .ok []
  | .ok rs :: rest =>
    match fetchAllUserRepos rest with
    | .error m => .error m
    | .ok tail => .ok (rs.map parseRepo ++ tail)

/-- Step 2 of get_user_move_repos (lines 207 to 215): keep the full names
of the repositories for which the Move-file check returns true; an Err from
the check aborts the whole function. -/
def filterMoveRepos (hasMove : String → Except String Bool) :
    List Repository → Except String (List String)
  | [] => .ok []
  | r :: rest => do
    let b ← hasMove r.full_name
    let tail ← filterMoveRepos hasMove rest
    pure (if b then r.full_name :: tail else tail)

/-- Step 3 of get_user_move_repos (lines 217 to 233): per Move-containing
repository, obtain the commit count, build a RepositoryWithCommits, and add
the count to the running u32 total. -/
def buildSummaries (commitPages : String → List CommitPage)
    (acc : List RepositoryWithCommits) (total : Nat) :
    List String → Except String (List RepositoryWithCommits × Nat)
  | [] => .ok (acc, total)
  | name :: rest => do
    let cnt ← get_user_commit_count (commitPages name)
    buildSummaries commitPages
      (acc ++ [{ repo_name := name,
                 repo_url := "https://github.com/" ++ name,
                 commit_count := cnt }])
      (u32add total cnt) rest

/-- Embedding of get_user_move_repos (src/main.rs lines 163 to 245).
repoPages models the per-account repository listing, hasMove the outcome
of repo_has_move_files per repository full name, commitPages the
author-filtered commit listing per repository full name. -/
def get_user_move_repos (username : String)
    (repoPages : List (Except String (List ApiRepo)))
    (hasMove : String → Except String Bool)
    (commitPages : String → List CommitPage) :
    Except String UserMoveFilesResponse := do
  let userRepos ← fetchAllUserRepos repoPages
  let moveRepos ← filterMoveRepos hasMove userRepos
  let (summaries, total) ← buildSummaries commitPages [] 0 moveRepos
  let sorted := sortDescBy (fun s => s.commit_count) summaries
  pure { username := username,
         has_move_files := !sorted.isEmpty,
         total_repositories := sorted.length,
         total_commits := total,
         repositories := sorted }

-- ------------------- fleet-mode search (get_sui_move_users) -------------------

/-- HashSet String insertion, modelled on a duplicate-free list kept in
insertion order. -/
def insertNew (s : List String) (x : String) : List String :=
  if x ∈ s then s else s ++ [x]

/-- The page loop of the code-search phase of get_sui_move_users (lines
372 to 427) over the successful page bodies of one query (the
search_queries vector of the source holds the single query
"extension:move"; a non-success response aborts the whole handler, so it
only shortens the run).  fuel is the remaining page budget (pages 1..=10).
Returns the accumulated deduplicated set of repository full names together
with the number of page requests issued. -/
def searchGo (cap : Nat) (acc : List String) :
    Nat → List (List String) → List String × Nat
  | 0, _ => (acc, 0)
  | _ + 1, [] => (acc, 1)
  | fuel + 1, items :: rest =>
    if items.isEmpty then (acc, 1)
    else
      let acc2 := items.foldl insertNew acc
      if cap ≤ acc2.length then (acc2, 1)
      else
        let r := searchGo cap acc2 fuel rest
        (r.1, r.2 + 1)

/-- The repository-discovery phase of get_sui_move_users with requested
limit and the sequence of search-result pages: cap is limit * 3, page
budget is 10. -/
def searchRepos (limit : Nat) (pages : List (List String)) :
    List String × Nat :=
  searchGo (limit * 3) [] 10 pages

-- ------------------- fleet-mode aggregation (get_sui_move_users) -------------------

/-- One repository fetch as seen by the aggregation loop (lines 432 to
469): the repository full name together with its parsed contributor list,
or none when the contributors request failed in any way (transport,
non-success status, or JSON decoding), in which case the repository is
silently skipped. -/
abbrev RepoFetch := String × Option (List Contributor)

/-- fields updated by the and_modify closure (lines 449 to 454). -/
def updUser (repoName : String) (c : Contributor) (u : UserResponse) :
    UserResponse :=
  { u with
    total_contributions := u32add u.total_contributions c.contributions,
    repositories :=
      if u.repositories.contains repoName then u.repositories
      else u.repositories ++ [repoName] }

/-- the or_insert record (lines 455 to 461). -/
def newUser (repoName : String) (c : Contributor) : UserResponse :=
  { login := c.login, avatar_url := c.avatar_url,
    profile_url := c.html_url,
    total_contributions := c.contributions,
    repositories := [repoName] }

/-- The entry(login).and_modify(..).or_insert(..) step on the user_data
map, modelled on an association list of aggregates keyed by login and kept
in insertion order (the contents of the HashMap are order-independent; the
order in which into_values later yields them is modelled separately as an
arbitrary permutation). -/
def insertContributor (repoName : String) (m : List UserResponse)
    (c : Contributor) : List UserResponse :=
  if m.any (fun u => u.login == c.login) then
    m.map (fun u => if u.login == c.login then updUser repoName c u else u)
  else m ++ [newUser repoName c]

/-- Folding one repository fetch into the map (one iteration of the loop
at line 432). -/
def processRepo (m : List UserResponse) (p : RepoFetch) : List UserResponse :=
  match p.2 with
  | none => m
  | some cs => cs.foldl (insertContributor p.1) m

/-- The whole aggregation loop: fold every repository fetch, in the order
the repositories are processed, into the initially empty map. -/
def aggregateUsers (repos : List RepoFetch) : List UserResponse :=
  repos.foldl processRepo []

/-- The aggregates produced by get_sui_move_users with the given requested
limit: only the first limit * 2 repositories of the discovered set are
processed (the iter().take(params.limit * 2) at line 432). -/
def fleetAggregates (limit : Nat) (fetches : List RepoFetch) :
    List UserResponse :=
  aggregateUsers (fetches.take (limit * 2))

/-- Final shaping of the fleet-mode response (lines 471 to 474): sort the
values of the user_data map by total_contributions descending (Rust
sort_by is a stable sort) and truncate to the requested limit.  values is
the sequence yielded by HashMap::into_values, an arbitrary permutation of
the aggregates in discovery order. -/
def fleetSortTrunc (limit : Nat) (values : List UserResponse) :
    List UserResponse :=
  (sortDescBy (fun u => u.total_contributions) values).take limit

-- ------------------- pagination event traces -------------------

/-- Observable events of a pagination loop: issuing the request for one
page, and sleeping for a fixed number of milliseconds. -/
inductive Event where
  | req (page : Nat)
  | sleep (ms : Nat)
deriving DecidableEq

/-- Event trace of the step-1 loop of get_user_move_repos: request page p;
an error response or an empty page ends the loop (the error return happens
before any sleep); otherwise sleep 500 ms and continue with the next
page. -/
def repoPagesTrace (p : Nat) : List (Except String (List ApiRepo)) → List Event
  | [] => [.req p]
  | .error _ :: _ => [.req p]
  | .ok [] :: _ => [.req p]
  | .ok _ :: rest => .req p :: .sleep 500 :: repoPagesTrace (p + 1) rest

/-- Event trace of the loop of get_user_commit_count: request page p; any
terminating response ends the loop; otherwise continue immediately with the
next page.  The loop body contains no sleep call. -/
def commitPagesTrace (p : Nat) : List CommitPage → List Event
  | [] => [.req p]
  | .err _ :: _ => [.req p]
  | .httpFail _ :: _ => [.req p]
  | .ok [] :: _ => [.req p]
  | .ok _ :: rest => .req p :: commitPagesTrace (p + 1) rest

/-- Event trace of the code-search page loop of get_sui_move_users over
successful page bodies: request page p; an empty page or reaching the cap
ends the loop; otherwise sleep 6000 ms and continue. -/
def searchTrace (cap : Nat) (acc : List String) (p : Nat) :
    Nat → List (List String) → List Event
  | 0, _ => []
  | _ + 1, [] => [.req p]
  | fuel + 1, items :: rest =>
    if items.isEmpty then [.req p]
    else
      let acc2 := items.foldl insertNew acc
      if cap ≤ acc2.length then [.req p]
      else .req p :: .sleep 6000 :: searchTrace cap acc2 (p + 1) fuel rest

/-- spaced b tr is true when no request in tr follows another request
without at least one sleep in between; b records whether the event just
before tr was a request. -/
def spaced : Bool → List Event → Bool
  | _, [] => true
  | false, .req _ :: rest => spaced true rest
  | true, .req _ :: _ => false
  | _, .sleep _ :: rest => spaced false rest

-- Decidable equality for Except results, for concrete instances.
deriving instance DecidableEq for Except

/-- A sample commit record, used by concrete instances. -/
def sampleCommit : Commit :=
  { commit := { author := { name := "n", email := "e" } }, author := none }

/-- The summary records that step 3 of get_user_move_repos builds for a
list of Move-containing repository names when every commit page request
succeeds: per name, the name, its web URL, and the total number of commits
across all pages. -/
def moveSummaries (commitPages : String → List (List Commit))
    (names : List String) : List RepositoryWithCommits :=
  names.map (fun n =>
    { repo_name := n, repo_url := "https://github.com/" ++ n,
      commit_count := (commitPages n).flatten.length })

/-- Concrete single-developer scenario: the account owns three
repositories. -/
def wRepoPages : List (List ApiRepo) :=
  [[{ full_name := "a/r1", html_url := "u1", fork := false },
    { full_name := "a/r2", html_url := "u2", fork := false },
    { full_name := "a/r3", html_url := "u3", fork := false }]]

/-- Concrete single-developer scenario: only a/r1 contains a Move file. -/
def wHasMove : String → Bool := fun n => n == "a/r1"

/-- Concrete single-developer scenario: a/r1 has one commit page of two
commits; the other repositories have none. -/
def wCommitPages : String → List (List Commit) := fun n =>
  if n == "a/r1" then [[sampleCommit, sampleCommit]] else []

/-- The aggregate stored under login L in the user_data map, if any. -/
def entryFor (L : String) (m : List UserResponse) : Option UserResponse :=
  m.find? (fun u => u.login == L)

/-- The effect of one contributor record on the map entry of its login:
and_modify when present, or_insert when absent. -/
def applyRecord (n : String) (ou : Option UserResponse) (c : Contributor) :
    Option UserResponse :=
  match ou with
  | some u => some (updUser n c u)
  | none => some (newUser n c)

/-- Contributions credited to login L by one repository fetch body. -/
def contribOf (L : String) : Option (List Contributor) → Nat
  | none => 0
  | some cs => ((cs.filter (fun c => c.login == L)).map
      (fun c => c.contributions)).sum

/-- Whether login L appears in one repository fetch body. -/
def hasLoginB (L : String) : Option (List Contributor) → Bool
  | none => false
  | some cs => cs.any (fun c => c.login == L)

/-- Whether login L appears among the contributors of a successfully
fetched repository named n in the processed list. -/
def inRepoB (L n : String) (repos : List RepoFetch) : Bool :=
  repos.any (fun p => p.1 == n && hasLoginB L p.2)

/-- Contributions of every record of one repository fetch body. -/
def allContrib : Option (List Contributor) → Nat
  | none => 0
  | some cs => (cs.map (fun c => c.contributions)).sum

/-- Sum of the contributions credited to login L across the processed
repositories. -/
def sumOf (L : String) (repos : List RepoFetch) : Nat :=
  (repos.map (fun p => contribOf L p.2)).sum

/-- Sum of every contribution record across the processed repositories. -/
def totalInput (repos : List RepoFetch) : Nat :=
  (repos.map (fun p => allContrib p.2)).sum

/-- Concrete fleet scenario with a contribution tie: alice (discovered
first, via repoA) and bob (via repoB) both have 5 contributions. -/
def c3Fetches : List RepoFetch :=
  [("repoA", some [{ login := "alice", avatar_url := "a", html_url := "pa",
                     contributions := 5 }]),
   ("repoB", some [{ login := "bob", avatar_url := "b", html_url := "pb",
                     contributions := 5 }])]

/-- Concrete fleet scenario: alice contributes 5 to repoA and 3 to repoB,
bob contributes 4 to repoB. -/
def c1Fetches : List RepoFetch :=
  [("repoA", some [{ login := "alice", avatar_url := "a", html_url := "pa",
                     contributions := 5 }]),
   ("repoB", some [{ login := "alice", avatar_url := "a", html_url := "pa",
                     contributions := 3 },
                   { login := "bob", avatar_url := "b", html_url := "pb",
                     contributions := 4 }])]

/-- The aggregate that the fleet fold produces for alice in the c1Fetches
scenario: 8 total contributions over repoA and repoB. -/
def c1Alice : UserResponse :=
  { login := "alice", avatar_url := "a", profile_url := "pa",
    total_contributions := 8, repositories := ["repoA", "repoB"] }

-- ------------------- Generic helper lemmas -------------------


theorem contains_iff_mem (l : List String) (a : String) :
    l.contains a = true ↔ a ∈ l := List.elem_iff

theorem contains_false_iff (l : List String) (a : String) :
    l.contains a = false ↔ a ∉ l := by
  rw [← contains_iff_mem l a]
  cases l.contains a <;> simp

theorem U32_pos : 0 < U32 := by decide

-- ------------------- Stable sort lemmas -------------------

theorem insDesc_perm (key : α → Nat) (x : α) (l : List α) :
    (insDesc key x l).Perm (x :: l) := by
  induction l with
  | nil => simp [insDesc]
  | cons y ys ih =>
    by_cases h : key x < key y
    · simpa [insDesc, h] using ((ih.cons y).trans (List.Perm.swap x y ys))
    · simp [insDesc, h]

theorem sortDescBy_perm (key : α → Nat) (l : List α) :
    (sortDescBy key l).Perm l := by
  induction l with
  | nil => simp [sortDescBy]
  | cons x xs ih =>
    exact (insDesc_perm key x (sortDescBy key xs)).trans (ih.cons x)

theorem insDesc_sorted (key : α → Nat) (x : α) (l : List α)
    (h : SortedDescBy key l) : SortedDescBy key (insDesc key x l) := by
  induction l with
  | nil => simp [insDesc, SortedDescBy]
  | cons y ys ih =>
    rw [SortedDescBy, List.pairwise_cons] at h
    by_cases hxy : key x < key y
    · rw [SortedDescBy, insDesc, if_pos hxy, List.pairwise_cons]
      refine ⟨fun z hz => ?_, ih h.2⟩
      rcases List.mem_cons.mp ((insDesc_perm key x ys).mem_iff.mp hz) with hz | hz
      · exact hz ▸ Nat.le_of_lt hxy
      · exact h.1 z hz
    · rw [SortedDescBy, insDesc, if_neg hxy, List.pairwise_cons]
      refine ⟨fun z hz => ?_, List.pairwise_cons.mpr h⟩
      rcases List.mem_cons.mp hz with hz | hz
      · exact hz ▸ Nat.le_of_not_lt hxy
      · exact Nat.le_trans (h.1 z hz) (Nat.le_of_not_lt hxy)

theorem sortDescBy_sorted (key : α → Nat) (l : List α) :
    SortedDescBy key (sortDescBy key l) := by
  induction l with
  | nil => simp [sortDescBy, SortedDescBy]
  | cons x xs ih => exact insDesc_sorted key x (sortDescBy key xs) ih

theorem sortDescBy_length (key : α → Nat) (l : List α) :
    (sortDescBy key l).length = l.length :=
  (sortDescBy_perm key l).length_eq

-- ------------------- Commit-count lemmas -------------------

/-- The loop of get_user_commit_count stops, keeping the accumulator, at
the end of the page sequence, at a non-success page, or at an empty
page. -/
theorem commitCountGo_stop (acc : Nat) (tail : List CommitPage)
    (hstop : tail = [] ∨ (∃ s r, tail = CommitPage.httpFail s :: r) ∨
      (∃ r, tail = CommitPage.ok [] :: r)) :
    commitCountGo acc tail = .ok acc := by
  rcases hstop with rfl | ⟨s, r, rfl⟩ | ⟨r, rfl⟩ <;> rfl

/-- Running the loop across a block of non-empty successful pages followed
by any stopping response accumulates exactly the commits of the block,
with u32 wrapping. -/
theorem commitCountGo_ok_block (pre : List (List Commit))
    (tail : List CommitPage) (acc : Nat) (ha : acc < U32)
    (hpre : ∀ p ∈ pre, p ≠ [])
    (hstop : tail = [] ∨ (∃ s r, tail = CommitPage.httpFail s :: r) ∨
      (∃ r, tail = CommitPage.ok [] :: r)) :
    commitCountGo acc (pre.map CommitPage.ok ++ tail) =
      .ok ((acc + pre.flatten.length) % U32) := by
  induction pre generalizing acc with
  | nil =>
    simp only [List.map_nil, List.nil_append, List.flatten_nil, List.length_nil,
      Nat.add_zero, Nat.mod_eq_of_lt ha]
    exact commitCountGo_stop acc tail hstop
  | cons cs ps ih =>
    obtain ⟨c, cs2, hcs⟩ := List.exists_cons_of_ne_nil (hpre cs (List.mem_cons_self cs ps))
    subst hcs
    have hrec : commitCountGo acc ((((c :: cs2) :: ps).map CommitPage.ok) ++ tail) =
        commitCountGo (u32add acc ((c :: cs2).length % U32)) (ps.map CommitPage.ok ++ tail) := rfl
    have ha2 : u32add acc ((c :: cs2).length % U32) < U32 := Nat.mod_lt _ U32_pos
    rw [hrec, ih _ ha2 (fun p hp => hpre p (List.mem_cons_of_mem _ hp))]
    congr 1
    simp only [u32add, U32, List.flatten_cons, List.length_append]
    omega


/-- C8: for every username and repository, and for every way the upstream
commit-listing endpoint partitions the same multiset of commits across
successive non-empty pages terminated by an empty page,
get_user_commit_count returns the same total. -/
theorem c8_partition_invariance (ps1 ps2 : List (List Commit))
    (h1 : ∀ p ∈ ps1, p ≠ []) (h2 : ∀ p ∈ ps2, p ≠ [])
    (hsame : ps1.flatten.Perm ps2.flatten) :
    get_user_commit_count (ps1.map CommitPage.ok) =
      get_user_commit_count (ps2.map CommitPage.ok) := by
  unfold get_user_commit_count
  have e1 := commitCountGo_ok_block ps1 [] 0 (by decide) h1 (Or.inl rfl)
  have e2 := commitCountGo_ok_block ps2 [] 0 (by decide) h2 (Or.inl rfl)
  simp only [List.append_nil] at e1 e2
  rw [e1, e2, hsame.length_eq]

/-- Witness for C8: three pages of two commits and one page of six commits
yield the same total, namely Ok 6. -/
theorem c8_witness :
    get_user_commit_count
        ([[sampleCommit, sampleCommit], [sampleCommit, sampleCommit],
          [sampleCommit, sampleCommit]].map CommitPage.ok) =
      get_user_commit_count
        ([[sampleCommit, sampleCommit, sampleCommit, sampleCommit,
           sampleCommit, sampleCommit]].map CommitPage.ok) :=
  c8_partition_invariance _ _ (by decide) (by decide) (by decide)

/-- C10: if the author-filtered commits endpoint returns a non-success
HTTP status on some page, get_user_commit_count returns Ok with only the
count accumulated from the preceding successful pages (Ok 0 when the first
page fails), rather than an error. -/
theorem c10_partial_count_on_failure (pre : List (List Commit))
    (post : List CommitPage) (status : Nat)
    (hpre : ∀ p ∈ pre, p ≠ []) (hlen : pre.flatten.length < U32) :
    get_user_commit_count
        (pre.map CommitPage.ok ++ CommitPage.httpFail status :: post) =
      .ok pre.flatten.length := by
  unfold get_user_commit_count
  rw [commitCountGo_ok_block pre (CommitPage.httpFail status :: post) 0
    (by decide) hpre (Or.inr (Or.inl ⟨status, post, rfl⟩))]
  rw [Nat.zero_add, Nat.mod_eq_of_lt hlen]

/-- Witness for C10: one successful page of one commit followed by a 404
page and a further page yields Ok 1 (and with no successful page first,
Ok 0). -/
theorem c10_witness :
    get_user_commit_count
        ([[sampleCommit]].map CommitPage.ok ++
          CommitPage.httpFail 404 :: [CommitPage.ok [sampleCommit]]) =
      .ok ([[sampleCommit]] : List (List Commit)).flatten.length :=
  c10_partial_count_on_failure [[sampleCommit]] [CommitPage.ok [sampleCommit]]
    404 (by decide) (by decide)

-- ------------------- C5 / C6: Move-file detection -------------------

/-- C5: repo_has_move_files treats any non-success HTTP response from the
repository-metadata endpoint or from the tree endpoint (including 404) as
Ok false, never as an error. -/
theorem c5_non_success_is_false (status : Nat)
    (treeResp : String → HttpOutcome (Option (List TreeEntry)))
    (meta : RepoMeta) :
    repo_has_move_files (.failure status) treeResp = .ok false ∧
    (treeResp (meta.default_branch.getD "main") = .failure status →
      repo_has_move_files (.success meta) treeResp = .ok false) := by
  refine ⟨rfl, fun h => ?_⟩
  simp only [repo_has_move_files, h]

/-- Witness for C5: a 404 on the metadata request, and a 404 on the tree
request of a repository whose metadata succeeds, both give Ok false. -/
theorem c5_witness :
    repo_has_move_files (.failure 404)
        (fun _ => .success (some [{ path := some "a.move" }])) = .ok false ∧
    repo_has_move_files (.success { default_branch := none })
        (fun _ => .failure 404) = .ok false :=
  ⟨(c5_non_success_is_false 404 _ { default_branch := none }).1,
   (c5_non_success_is_false 404 (fun _ => .failure 404)
     { default_branch := none }).2 rfl⟩

/-- C6: when the metadata and tree fetches both succeed,
repo_has_move_files reads the tree of the default branch recorded in the
metadata (falling back to "main" when it is absent) and returns Ok true
exactly when some entry has a path ending in ".move". -/
theorem c6_move_detection (meta : RepoMeta)
    (treeResp : String → HttpOutcome (Option (List TreeEntry)))
    (tree : List TreeEntry)
    (h : treeResp (meta.default_branch.getD "main") = .success (some tree)) :
    repo_has_move_files (.success meta) treeResp = .ok true ↔
      ∃ e ∈ tree, ∃ p, e.path = some p ∧ strEndsWith p ".move" = true := by
  simp only [repo_has_move_files, h, Except.ok.injEq]
  rw [List.any_eq_true]
  constructor
  · rintro ⟨e, he, hp⟩
    match hpath : e.path with
    | some p => exact ⟨e, he, p, hpath, by rw [hpath] at hp; exact hp⟩
    | none => rw [hpath] at hp; exact absurd hp (by simp)
  · rintro ⟨e, he, p, hp, hs⟩
    exact ⟨e, he, by rw [hp]; exact hs⟩

/-- Witness for C6: a repository without a recorded default branch whose
"main" tree holds src/a.move is detected, and the detection is justified
by that entry. -/
theorem c6_witness :
    repo_has_move_files (.success { default_branch := none })
        (fun b => if b = "main"
          then .success (some [{ path := none }, { path := some "src/a.move" }])
          else .failure 404) = .ok true := by
  have h := c6_move_detection { default_branch := none }
    (fun b => if b = "main"
      then .success (some [{ path := none }, { path := some "src/a.move" }])
      else .failure 404)
    [{ path := none }, { path := some "src/a.move" }] (by decide)
  exact h.mpr ⟨{ path := some "src/a.move" }, by decide, "src/a.move", rfl, by decide⟩

-- ------------------- C9: per-account repository enumeration -------------------

/-- C9 counterexample: the per-account listing loop performs no fork
filtering.  A listing whose single repository is marked fork = true in the
payload still ends up in the candidate set (the deserializer drops the
fork flag and every parsed repository is kept). -/
theorem c9_counterexample :
    (({ full_name := "octo/fork1", html_url := "u", fork := true } : ApiRepo).fork
        = true) ∧
    fetchAllUserRepos
        [Except.ok [{ full_name := "octo/fork1", html_url := "u", fork := true }]] =
      .ok [parseRepo { full_name := "octo/fork1", html_url := "u", fork := true }] :=
  ⟨rfl, by decide⟩

/-- C9 amended: step 1 of get_user_move_repos pages from page 1 in steps
of one until an empty page with no cap, and the candidate set is exactly
every repository of the listing in order, forks included (no fork
filtering is performed). -/
theorem c9_full_enumeration (pages : List (List ApiRepo))
    (h : ∀ p ∈ pages, p ≠ []) :
    fetchAllUserRepos (pages.map Except.ok) = .ok (pages.flatten.map parseRepo) := by
  induction pages with
  | nil => rfl
  | cons rs ps ih =>
    obtain ⟨r, rs2, hrs⟩ := List.exists_cons_of_ne_nil (h rs (List.mem_cons_self rs ps))
    subst hrs
    have hrec : fetchAllUserRepos (((r :: rs2) :: ps).map Except.ok) =
        match fetchAllUserRepos (ps.map Except.ok) with
        | .error m => .error m
        | .ok tail => .ok ((r :: rs2).map parseRepo ++ tail) := rfl
    rw [hrec, ih (fun p hp => h p (List.mem_cons_of_mem _ hp))]
    simp

/-- Witness for C9 amended: a two-page listing (one fork, one not) is
enumerated completely and in order. -/
theorem c9_witness :
    fetchAllUserRepos
        ([[{ full_name := "o/a", html_url := "ua", fork := true }],
          [{ full_name := "o/b", html_url := "ub", fork := false }]].map Except.ok) =
      .ok (([[{ full_name := "o/a", html_url := "ua", fork := true }],
             [{ full_name := "o/b", html_url := "ub", fork := false }]] :
              List (List ApiRepo)).flatten.map parseRepo) :=
  c9_full_enumeration _ (by decide)

-- ------------------- C7: inter-page delays -------------------

/-- C7 counterexample: in the author-filtered commit pagination the
request for page 2 follows the request for page 1 with no sleep event in
between, so the claimed fixed inter-page delay does not hold for that
paginated sequence. -/
theorem c7_counterexample :
    spaced false (commitPagesTrace 1
        [CommitPage.ok [sampleCommit], CommitPage.ok [sampleCommit]]) = false := by
  decide

/-- C7 amended: the per-account repository pagination and the code-search
pagination sleep between consecutive page requests (500 ms and 6000 ms),
while the commit-list pagination of get_user_commit_count issues
consecutive page requests with no sleep at all. -/
theorem c7_inter_page_delay :
    (∀ p pages, spaced false (repoPagesTrace p pages) = true) ∧
    (∀ cap acc p fuel pages, spaced false (searchTrace cap acc p fuel pages) = true) ∧
    (∀ p pages, ∀ e ∈ commitPagesTrace p pages, ∃ n, e = Event.req n) := by
  refine ⟨?_, ?_, ?_⟩
  · intro p pages
    induction pages generalizing p with
    | nil => rfl
    | cons pg rest ih =>
      match pg with
      | .error m => rfl
      | .ok [] => rfl
      | .ok (r :: rs) =>
        show spaced false (.req p :: .sleep 500 :: repoPagesTrace (p + 1) rest) = true
        exact ih (p + 1)
  · intro cap acc p fuel pages
    induction fuel generalizing cap acc p pages with
    | zero => rfl
    | succ fuel ih =>
      match pages with
      | [] => rfl
      | items :: rest =>
        by_cases he : items.isEmpty
        · simp only [searchTrace, he, if_true]; rfl
        · simp only [searchTrace, he, if_false]
          by_cases hc : cap ≤ (items.foldl insertNew acc).length
          · simp only [hc, if_true]; rfl
          · simp only [hc, if_false]
            exact ih cap (items.foldl insertNew acc) (p + 1) rest
  · intro p pages
    induction pages generalizing p with
    | nil => intro e he; exact ⟨p, by simpa [commitPagesTrace] using he⟩
    | cons pg rest ih =>
      match pg with
      | .err m => intro e he; exact ⟨p, by simpa [commitPagesTrace] using he⟩
      | .httpFail s => intro e he; exact ⟨p, by simpa [commitPagesTrace] using he⟩
      | .ok [] => intro e he; exact ⟨p, by simpa [commitPagesTrace] using he⟩
      | .ok (c :: cs) =>
        intro e he
        rcases List.mem_cons.mp he with rfl | he2
        · exact ⟨p, rfl⟩
        · exact ih (p + 1) e he2

-- ------------------- C4: search-variant oversampling cap -------------------

theorem insertNew_length_le (s : List String) (x : String) :
    (insertNew s x).length ≤ s.length + 1 := by
  unfold insertNew
  by_cases h : x ∈ s <;> simp [h]

theorem insertNew_length_ge (s : List String) (x : String) :
    s.length ≤ (insertNew s x).length := by
  unfold insertNew
  by_cases h : x ∈ s <;> simp [h]

theorem foldl_insertNew_length_le (items : List String) (acc : List String) :
    (items.foldl insertNew acc).length ≤ acc.length + items.length := by
  induction items generalizing acc with
  | nil => simp
  | cons x xs ih =>
    calc (xs.foldl insertNew (insertNew acc x)).length
        ≤ (insertNew acc x).length + xs.length := ih (insertNew acc x)
      _ ≤ acc.length + 1 + xs.length :=
          Nat.add_le_add_right (insertNew_length_le acc x) _
      _ = acc.length + (x :: xs).length := by simp; omega

theorem foldl_insertNew_length_ge (items : List String) (acc : List String) :
    acc.length ≤ (items.foldl insertNew acc).length := by
  induction items generalizing acc with
  | nil => simp
  | cons x xs ih =>
    exact Nat.le_trans (insertNew_length_ge acc x) (ih (insertNew acc x))

theorem insertNew_nodup (s : List String) (x : String) (h : s.Nodup) :
    (insertNew s x).Nodup := by
  unfold insertNew
  by_cases hx : x ∈ s
  · simpa [hx]
  · simpa [hx] using List.Nodup.append h (List.nodup_singleton x)
      (by simpa [List.disjoint_singleton] using hx)

theorem foldl_insertNew_nodup (items : List String) (acc : List String)
    (h : acc.Nodup) : (items.foldl insertNew acc).Nodup := by
  induction items generalizing acc with
  | nil => exact h
  | cons x xs ih => exact ih (insertNew acc x) (insertNew_nodup acc x h)

/-- C4 counterexample: with requested limit 1 (cap 3) a single search page
of four distinct repositories leaves the accumulated deduplicated set at
four entries, exceeding limit times 3. -/
theorem c4_counterexample :
    ¬ ((searchRepos 1 [["a", "b", "c", "d"]]).1.length ≤ 1 * 3) := by
  decide

/-- C4 amended: the search stops early once the accumulated deduplicated
set reaches limit times 3 (from any state at or above the cap, at most the
one in-flight page request is issued and no further one), and while the
set may overshoot the cap inside the final page, it stays below
limit times 3 plus one page's item count (for limit at least 1 and pages
of at most P items); the accumulated set is deduplicated. -/
theorem c4_oversampling_cap :
    (∀ cap acc fuel pages, cap ≤ acc.length →
      (searchGo cap acc fuel pages).2 ≤ 1) ∧
    (∀ limit pages P, 1 ≤ limit → (∀ p ∈ pages, p.length ≤ P) →
      (searchRepos limit pages).1.length < limit * 3 + P) ∧
    (∀ limit pages, (searchRepos limit pages).1.Nodup) := by
  have hgo : ∀ pages fuel (acc : List String) cap P, (∀ p ∈ pages, p.length ≤ P) →
      acc.length < cap → (searchGo cap acc fuel pages).1.length < cap + P := by
    intro pages
    induction pages with
    | nil =>
      intro fuel acc cap P _ hacc
      match fuel with
      | 0 => exact Nat.lt_of_lt_of_le hacc (Nat.le_add_right _ _)
      | fuel + 1 => exact Nat.lt_of_lt_of_le hacc (Nat.le_add_right _ _)
    | cons items rest ih =>
      intro fuel acc cap P hP hacc
      match fuel with
      | 0 => exact Nat.lt_of_lt_of_le hacc (Nat.le_add_right _ _)
      | fuel + 1 =>
        by_cases he : items.isEmpty
        · simp only [searchGo, he, if_true]
          exact Nat.lt_of_lt_of_le hacc (Nat.le_add_right _ _)
        · simp only [searchGo, he, if_false]
          have hlen : (items.foldl insertNew acc).length < cap + P := by
            calc (items.foldl insertNew acc).length
                ≤ acc.length + items.length := foldl_insertNew_length_le items acc
              _ ≤ acc.length + P :=
                  Nat.add_le_add_left (hP items (List.mem_cons_self items rest)) _
              _ < cap + P := Nat.add_lt_add_right hacc P
          by_cases hc : cap ≤ (items.foldl insertNew acc).length
          · simpa [hc] using hlen
          · simp only [hc, if_false]
            exact ih fuel (items.foldl insertNew acc) cap P
              (fun p hp => hP p (List.mem_cons_of_mem _ hp)) (Nat.lt_of_not_le hc)
  refine ⟨?_, ?_, ?_⟩
  · intro cap acc fuel pages h
    match fuel, pages with
    | 0, _ => exact Nat.zero_le 1
    | _ + 1, [] => exact Nat.le_refl 1
    | fuel + 1, items :: rest =>
      by_cases he : items.isEmpty
      · simp [searchGo, he]
      · have hc : cap ≤ (items.foldl insertNew acc).length :=
          Nat.le_trans h (foldl_insertNew_length_ge items acc)
        simp [searchGo, he, hc]
  · intro limit pages P hl hP
    exact hgo pages 10 [] (limit * 3) P hP
      (by simpa using Nat.mul_pos hl (show (0 : Nat) < 3 by decide))
  · intro limit pages
    have hnd : ∀ pages fuel (acc : List String) cap, acc.Nodup →
        (searchGo cap acc fuel pages).1.Nodup := by
      intro pages
      induction pages with
      | nil =>
        intro fuel acc cap h
        match fuel with
        | 0 => exact h
        | fuel + 1 => exact h
      | cons items rest ih =>
        intro fuel acc cap h
        match fuel with
        | 0 => exact h
        | fuel + 1 =>
          by_cases he : items.isEmpty
          · simpa [searchGo, he] using h
          · have h2 := foldl_insertNew_nodup items acc h
            by_cases hc : cap ≤ (items.foldl insertNew acc).length
            · simpa [searchGo, he, hc] using h2
            · simpa [searchGo, he, hc] using ih fuel _ cap h2
    exact hnd pages 10 [] (limit * 3) List.nodup_nil

/-- Witness for C4 amended: concrete instances of all three parts, with
the cap already reached, a bounded two-item page, and a duplicated page
entry. -/
theorem c4_witness :
    (searchGo 3 ["a", "b", "c"] 10 [["d"]]).2 ≤ 1 ∧
    (searchRepos 1 [["a", "b"]]).1.length < 1 * 3 + 2 ∧
    (searchRepos 1 [["a", "a"]]).1.Nodup :=
  ⟨c4_oversampling_cap.1 3 ["a", "b", "c"] 10 [["d"]] (by decide),
   c4_oversampling_cap.2.1 1 [["a", "b"]] 2 (by decide) (by decide),
   c4_oversampling_cap.2.2 1 [["a", "a"]]⟩

-- ------------------- C2: single-developer report -------------------

theorem get_user_commit_count_ok (ps : List (List Commit))
    (h : ∀ p ∈ ps, p ≠ []) :
    get_user_commit_count (ps.map CommitPage.ok) = .ok (ps.flatten.length % U32) := by
  unfold get_user_commit_count
  have e := commitCountGo_ok_block ps [] 0 (by decide) h (Or.inl rfl)
  simpa using e

theorem filterMoveRepos_pure (hm : String → Bool) (rs : List Repository) :
    filterMoveRepos (fun s => .ok (hm s)) rs =
      .ok ((rs.filter (fun r => hm r.full_name)).map (fun r => r.full_name)) := by
  induction rs with
  | nil => rfl
  | cons r rest ih =>
    have hcons : filterMoveRepos (fun s => .ok (hm s)) (r :: rest) =
        (Except.ok (hm r.full_name)).bind (fun b =>
          (filterMoveRepos (fun s => .ok (hm s)) rest).bind (fun tail =>
            pure (if b then r.full_name :: tail else tail))) := rfl
    rw [hcons, ih]
    by_cases hb : hm r.full_name = true <;>
      simp [hb, List.filter_cons, Except.bind, pure, Except.pure]

theorem buildSummaries_ok (commitPages : String → List CommitPage)
    (cnt : String → Nat) (names : List String)
    (acc : List RepositoryWithCommits) (total : Nat) (htot : total < U32)
    (hc : ∀ n ∈ names, get_user_commit_count (commitPages n) = .ok (cnt n)) :
    buildSummaries commitPages acc total names =
      .ok (acc ++ names.map (fun n =>
            { repo_name := n, repo_url := "https://github.com/" ++ n,
              commit_count := cnt n }),
           (total + (names.map cnt).sum) % U32) := by
  induction names generalizing acc total with
  | nil => simp [buildSummaries, Nat.mod_eq_of_lt htot]
  | cons n ns ih =>
    have hn := hc n (List.mem_cons_self n ns)
    have htot2 : u32add total (cnt n) < U32 := Nat.mod_lt _ U32_pos
    have hstep := ih
      (acc ++ [{ repo_name := n, repo_url := "https://github.com/" ++ n,
                 commit_count := cnt n }])
      (u32add total (cnt n)) htot2
      (fun m hm => hc m (List.mem_cons_of_mem _ hm))
    have hcons : buildSummaries commitPages acc total (n :: ns) =
        (get_user_commit_count (commitPages n)).bind (fun c =>
          buildSummaries commitPages
            (acc ++ [{ repo_name := n, repo_url := "https://github.com/" ++ n,
                       commit_count := c }])
            (u32add total c) ns) := rfl
    rw [hcons, hn]
    refine Eq.trans hstep ?_
    apply congrArg
    refine Prod.ext ?_ ?_
    · simp [List.append_assoc]
    · simp only [u32add, U32, List.map_cons, List.sum_cons]
      omega



/-- C2: for a username whose repository listing pages, Move checks and
commit pages all succeed (and the grand total fits in a u32),
get_user_move_repos drains every commit page of every Move-containing
repository, reports total_commits as the exact sum of the per-repository
commit counts, sorts the summaries by commit_count descending, sets
has_move_files true exactly when the summary list is non-empty, sets
total_repositories to the number of Move-containing repositories, and
lists exactly the Move-containing repositories. -/
theorem c2_single_developer_report (username : String)
    (repoPages : List (List ApiRepo)) (hasMove : String → Bool)
    (commitPages : String → List (List Commit)) (moveNames : List String)
    (hmn : moveNames = (((repoPages.flatten.map parseRepo).filter
        (fun r => hasMove r.full_name)).map (fun r => r.full_name)))
    (hrp : ∀ p ∈ repoPages, p ≠ [])
    (hcp : ∀ n ∈ moveNames, ∀ p ∈ commitPages n, p ≠ [])
    (hsum : (moveNames.map (fun n => (commitPages n).flatten.length)).sum < U32) :
    ∃ resp,
      get_user_move_repos username (repoPages.map Except.ok)
          (fun s => .ok (hasMove s))
          (fun s => (commitPages s).map CommitPage.ok) = .ok resp ∧
      resp.total_commits =
        (moveNames.map (fun n => (commitPages n).flatten.length)).sum ∧
      SortedDescBy (fun s => s.commit_count) resp.repositories ∧
      (resp.has_move_files = true ↔ moveNames ≠ []) ∧
      resp.total_repositories = moveNames.length ∧
      (resp.repositories.map (fun s => s.repo_name)).Perm moveNames ∧
      (∀ s ∈ resp.repositories, s.repo_name ∈ moveNames ∧
        s.commit_count = (commitPages s.repo_name).flatten.length) := by
  have hlen : ∀ n ∈ moveNames, (commitPages n).flatten.length < U32 := by
    intro n hn
    refine Nat.lt_of_le_of_lt ?_ hsum
    exact List.single_le_sum (fun x _ => Nat.zero_le x) _
      (List.mem_map_of_mem _ hn)
  have hc : ∀ n ∈ moveNames,
      get_user_commit_count ((commitPages n).map CommitPage.ok) =
        .ok ((commitPages n).flatten.length) := by
    intro n hn
    rw [get_user_commit_count_ok (commitPages n) (hcp n hn),
      Nat.mod_eq_of_lt (hlen n hn)]
  have h1 : fetchAllUserRepos (repoPages.map Except.ok) =
      .ok (repoPages.flatten.map parseRepo) := c9_full_enumeration repoPages hrp
  have h2 : filterMoveRepos (fun s => .ok (hasMove s))
      (repoPages.flatten.map parseRepo) = .ok moveNames := by
    rw [filterMoveRepos_pure, ← hmn]
  have h3 := buildSummaries_ok (fun s => (commitPages s).map CommitPage.ok)
    (fun n => (commitPages n).flatten.length) moveNames [] 0 (by decide) hc
  rw [List.nil_append, Nat.zero_add, Nat.mod_eq_of_lt hsum] at h3
  have h3b : buildSummaries (fun s => (commitPages s).map CommitPage.ok) [] 0
      moveNames = .ok (moveSummaries commitPages moveNames,
        (moveNames.map (fun n => (commitPages n).flatten.length)).sum) := h3
  have hchain : get_user_move_repos username (repoPages.map Except.ok)
      (fun s => .ok (hasMove s)) (fun s => (commitPages s).map CommitPage.ok) =
      (fetchAllUserRepos (repoPages.map Except.ok)).bind (fun userRepos =>
        (filterMoveRepos (fun s => .ok (hasMove s)) userRepos).bind (fun mv =>
          (buildSummaries (fun s => (commitPages s).map CommitPage.ok) [] 0 mv).bind
            (fun pr =>
              pure { username := username,
                     has_move_files :=
                       !(sortDescBy (fun s => s.commit_count) pr.1).isEmpty,
                     total_repositories :=
                       (sortDescBy (fun s => s.commit_count) pr.1).length,
                     total_commits := pr.2,
                     repositories :=
                       sortDescBy (fun s => s.commit_count) pr.1 }))) := rfl
  have hrun : get_user_move_repos username (repoPages.map Except.ok)
      (fun s => .ok (hasMove s)) (fun s => (commitPages s).map CommitPage.ok) =
      .ok { username := username,
            has_move_files :=
              !(sortDescBy (fun s : RepositoryWithCommits => s.commit_count)
                (moveSummaries commitPages moveNames)).isEmpty,
            total_repositories :=
              (sortDescBy (fun s : RepositoryWithCommits => s.commit_count)
                (moveSummaries commitPages moveNames)).length,
            total_commits :=
              (moveNames.map (fun n => (commitPages n).flatten.length)).sum,
            repositories :=
              sortDescBy (fun s : RepositoryWithCommits => s.commit_count)
                (moveSummaries commitPages moveNames) } := by
    rw [hchain, h1]
    simp only [Except.bind]
    rw [h2]
    simp only [Except.bind]
    rw [h3b]
    simp only [Except.bind, pure, Except.pure]
  have hmapnames : ((moveSummaries commitPages moveNames).map
      (fun s => s.repo_name)) = moveNames := by
    unfold moveSummaries
    rw [List.map_map]
    have hid : List.map ((fun s : RepositoryWithCommits => s.repo_name) ∘ (fun n =>
        ({ repo_name := n, repo_url := "https://github.com/" ++ n,
           commit_count := (commitPages n).flatten.length } :
             RepositoryWithCommits))) moveNames = List.map id moveNames :=
      List.map_congr_left (fun a _ => rfl)
    exact hid.trans (List.map_id _)
  have hlength : (sortDescBy (fun s : RepositoryWithCommits => s.commit_count)
      (moveSummaries commitPages moveNames)).length = moveNames.length := by
    rw [sortDescBy_length]
    unfold moveSummaries
    rw [List.length_map]
  refine ⟨_, hrun, rfl, sortDescBy_sorted _ _, ?_, hlength, ?_, ?_⟩
  · show (!(sortDescBy (fun s : RepositoryWithCommits => s.commit_count)
      (moveSummaries commitPages moveNames)).isEmpty) = true ↔ moveNames ≠ []
    rw [Bool.not_eq_true', List.isEmpty_eq_false]
    constructor
    · intro h hnil
      exact h (List.length_eq_zero.mp (by rw [hlength, hnil]; rfl))
    · intro h hnil
      exact h (List.length_eq_zero.mp (by rw [← hlength, hnil]; rfl))
  · have hp := (sortDescBy_perm (fun s : RepositoryWithCommits => s.commit_count)
      (moveSummaries commitPages moveNames)).map (fun s => s.repo_name)
    rw [hmapnames] at hp
    exact hp
  · intro s hs
    have hs2 := (sortDescBy_perm (fun s : RepositoryWithCommits => s.commit_count)
      (moveSummaries commitPages moveNames)).mem_iff.mp hs
    unfold moveSummaries at hs2
    obtain ⟨n, hn, rfl⟩ := List.mem_map.mp hs2
    exact ⟨hn, rfl⟩

/-- Witness for C2: of three owned repositories only a/r1 contains Move
files; the report has has_move_files true, total_repositories 1, the
other two repositories excluded, and total_commits 2. -/
theorem c2_witness :
    ∃ resp,
      get_user_move_repos "alice" (wRepoPages.map Except.ok)
          (fun s => .ok (wHasMove s))
          (fun s => (wCommitPages s).map CommitPage.ok) = .ok resp ∧
      resp.total_commits =
        ((["a/r1"] : List String).map
          (fun n => (wCommitPages n).flatten.length)).sum ∧
      SortedDescBy (fun s => s.commit_count) resp.repositories ∧
      (resp.has_move_files = true ↔ (["a/r1"] : List String) ≠ []) ∧
      resp.total_repositories = (["a/r1"] : List String).length ∧
      (resp.repositories.map (fun s => s.repo_name)).Perm ["a/r1"] ∧
      (∀ s ∈ resp.repositories, s.repo_name ∈ (["a/r1"] : List String) ∧
        s.commit_count = (wCommitPages s.repo_name).flatten.length) :=
  c2_single_developer_report "alice" wRepoPages wHasMove wCommitPages ["a/r1"]
    (by decide) (by decide) (by decide) (by decide)

-- ------------------- C1: fleet aggregation invariant -------------------

theorem updUser_login (n : String) (c : Contributor) (u : UserResponse) :
    (updUser n c u).login = u.login := rfl

theorem logins_insertContributor (n : String) (m : List UserResponse)
    (c : Contributor) :
    (insertContributor n m c).map (fun u => u.login) =
      if m.any (fun u => u.login == c.login)
      then m.map (fun u => u.login)
      else m.map (fun u => u.login) ++ [c.login] := by
  unfold insertContributor
  by_cases h : m.any (fun u => u.login == c.login)
  · rw [if_pos h, if_pos h, List.map_map]
    exact List.map_congr_left (fun u _ => by
      by_cases h2 : (u.login == c.login) = true <;>
        simp [Function.comp, h2, updUser])
  · rw [if_neg h, if_neg h, List.map_append]
    rfl

theorem nodup_logins_insert (n : String) (m : List UserResponse)
    (c : Contributor) (h : (m.map (fun u => u.login)).Nodup) :
    ((insertContributor n m c).map (fun u => u.login)).Nodup := by
  rw [logins_insertContributor]
  by_cases ha : m.any (fun u => u.login == c.login)
  · rwa [if_pos ha]
  · rw [if_neg ha]
    have hno : c.login ∉ m.map (fun u => u.login) := by
      intro hmem
      obtain ⟨u, hu, he⟩ := List.mem_map.mp hmem
      rw [List.any_eq_true] at ha
      exact ha ⟨u, hu, beq_iff_eq.mpr he⟩
    exact ((List.perm_append_singleton c.login _).nodup_iff).mpr
      (List.nodup_cons.mpr ⟨hno, h⟩)

theorem find?_map_preserving (g : UserResponse → UserResponse)
    (hg : ∀ u, (g u).login = u.login) (L : String) (m : List UserResponse) :
    (m.map g).find? (fun u => u.login == L) =
      (m.find? (fun u => u.login == L)).map g := by
  induction m with
  | nil => rfl
  | cons a t ih =>
    by_cases h : (a.login == L) = true
    · have h2 : ((g a).login == L) = true := by rw [hg a]; exact h
      rw [List.map_cons,
        @List.find?_cons_of_pos _ (fun u => u.login == L) (g a) (t.map g) h2,
        @List.find?_cons_of_pos _ (fun u => u.login == L) a t h]
      rfl
    · have hf : (a.login == L) = false := by
        cases hb : (a.login == L) with
        | true => exact absurd hb h
        | false => rfl
      have h2 : ((g a).login == L) = false := by rw [hg a]; exact hf
      rw [List.map_cons,
        @List.find?_cons_of_neg _ (fun u => u.login == L) (g a) (t.map g)
          (by simp [h2]),
        @List.find?_cons_of_neg _ (fun u => u.login == L) a t (by simp [hf]), ih]

theorem bool_eq_false_of_not_true {b : Bool} (h : ¬ b = true) : b = false := by
  cases b
  · rfl
  · exact absurd rfl h

theorem updUser_if_login (n : String) (c : Contributor) :
    ∀ u, ((if u.login == c.login then updUser n c u else u) :
      UserResponse).login = u.login := by
  intro u
  by_cases h2 : (u.login == c.login) = true
  · simp [h2, updUser]
  · simp [bool_eq_false_of_not_true h2]

theorem entryFor_insert_ne (n : String) (m : List UserResponse)
    (c : Contributor) (L : String) (hne : (c.login == L) = false) :
    entryFor L (insertContributor n m c) = entryFor L m := by
  unfold entryFor insertContributor
  by_cases ha : m.any (fun u => u.login == c.login)
  · rw [if_pos ha, find?_map_preserving _ (updUser_if_login n c) L m]
    cases hfind : m.find? (fun u => u.login == L) with
    | none => rfl
    | some u =>
      have hu := List.find?_some hfind
      have huL : u.login = L := beq_iff_eq.mp hu
      have hne2 : (u.login == c.login) = false := by
        rw [huL]
        rw [beq_eq_false_iff_ne] at hne ⊢
        exact fun he => hne he.symm
      have hred : Option.map (fun u => if u.login == c.login then updUser n c u else u)
          (some u) = some (if u.login == c.login then updUser n c u else u) := rfl
      rw [hred, hne2]
      rfl
  · rw [if_neg ha, List.find?_append]
    have hnone : List.find? (fun u => u.login == L) [newUser n c] = none := by
      have hnew : ((newUser n c).login == L) = false := hne
      simp [List.find?, hnew]
    rw [hnone]
    cases m.find? (fun u => u.login == L) <;> rfl

theorem entryFor_insert_eq (n : String) (m : List UserResponse)
    (c : Contributor) :
    entryFor c.login (insertContributor n m c) =
      some (match entryFor c.login m with
            | some u => updUser n c u
            | none => newUser n c) := by
  unfold entryFor insertContributor
  by_cases ha : m.any (fun u => u.login == c.login)
  · rw [if_pos ha, find?_map_preserving _ (updUser_if_login n c) c.login m]
    have hsome : (m.find? (fun u => u.login == c.login)).isSome = true :=
      List.find?_isSome.mpr (List.any_eq_true.mp ha)
    cases hfind : m.find? (fun u => u.login == c.login) with
    | none => rw [hfind] at hsome; exact absurd hsome (by simp)
    | some u =>
      have hu := List.find?_some hfind
      have hu2 : (u.login == c.login) = true := hu
      have hred : Option.map (fun u => if u.login == c.login then updUser n c u else u)
          (some u) = some (if u.login == c.login then updUser n c u else u) := rfl
      rw [hred, hu2]
      rfl
  · rw [if_neg ha, List.find?_append]
    have hnone : m.find? (fun u => u.login == c.login) = none := by
      cases hfind : m.find? (fun u => u.login == c.login) with
      | none => rfl
      | some u =>
        exact absurd (List.any_eq_true.mpr
          ⟨u, List.mem_of_find?_eq_some hfind, List.find?_some hfind⟩) ha
    rw [hnone]
    simp [List.find?, newUser]

theorem entryFor_foldl_insert (n : String) (cs : List Contributor)
    (m : List UserResponse) (L : String) :
    entryFor L (cs.foldl (insertContributor n) m) =
      (cs.filter (fun c => c.login == L)).foldl (applyRecord n)
        (entryFor L m) := by
  induction cs generalizing m with
  | nil => rfl
  | cons c cs ih =>
    rw [List.foldl_cons, ih, List.filter_cons]
    by_cases hc : (c.login == L) = true
    · have hL : c.login = L := beq_iff_eq.mp hc
      rw [if_pos hc, List.foldl_cons]
      have he : entryFor L (insertContributor n m c) =
          some (match entryFor L m with
                | some u => updUser n c u
                | none => newUser n c) := by
        rw [← hL]
        exact entryFor_insert_eq n m c
      rw [he]
      have ha : applyRecord n (entryFor L m) c =
          some (match entryFor L m with
                | some u => updUser n c u
                | none => newUser n c) := by
        cases entryFor L m <;> rfl
      rw [ha]
    · have hf : (c.login == L) = false := bool_eq_false_of_not_true hc
      rw [if_neg (by simp [hf]), entryFor_insert_ne n m c L hf]

theorem applyRecord_foldl_some (n : String) (u : UserResponse)
    (vs : List Contributor) (hvs : vs ≠ []) :
    vs.foldl (applyRecord n) (some u) =
      some { login := u.login, avatar_url := u.avatar_url,
             profile_url := u.profile_url,
             total_contributions := (u.total_contributions +
               (vs.map (fun c => c.contributions)).sum) % U32,
             repositories :=
               if u.repositories.contains n then u.repositories
               else u.repositories ++ [n] } := by
  induction vs generalizing u with
  | nil => exact absurd rfl hvs
  | cons v vs ih =>
    rw [List.foldl_cons]
    by_cases h : vs = []
    · subst h
      simp only [List.foldl_nil, List.map_cons, List.map_nil, List.sum_cons,
        List.sum_nil, Nat.add_zero]
      rfl
    · rw [show applyRecord n (some u) v = some (updUser n v u) from rfl,
        ih (updUser n v u) h]
      apply congrArg
      have hrepos : (updUser n v u).repositories =
          (if u.repositories.contains n then u.repositories
           else u.repositories ++ [n]) := rfl
      have hcontains : ((updUser n v u).repositories.contains n) = true := by
        rw [hrepos]
        by_cases hb : u.repositories.contains n = true
        · rw [if_pos hb]; exact hb
        · rw [if_neg hb, contains_iff_mem]
          exact List.mem_append_right _ (List.mem_singleton_self n)
      simp only [UserResponse.mk.injEq]
      refine ⟨rfl, rfl, rfl, ?_, ?_⟩
      · show ((updUser n v u).total_contributions +
            (vs.map (fun c => c.contributions)).sum) % U32 =
          (u.total_contributions +
            ((v :: vs).map (fun c => c.contributions)).sum) % U32
        rw [show (updUser n v u).total_contributions =
            (u.total_contributions + v.contributions) % U32 from rfl]
        simp only [List.map_cons, List.sum_cons, U32]
        omega
      · rw [hcontains, if_pos rfl, hrepos]

theorem applyRecord_foldl_none (n : String) (v : Contributor)
    (vs : List Contributor) (hv : v.contributions < U32) :
    (v :: vs).foldl (applyRecord n) none =
      some { login := v.login, avatar_url := v.avatar_url,
             profile_url := v.html_url,
             total_contributions :=
               ((v :: vs).map (fun c => c.contributions)).sum % U32,
             repositories := [n] } := by
  rw [List.foldl_cons,
    show applyRecord n none v = some (newUser n v) from rfl]
  by_cases h : vs = []
  · subst h
    simp only [List.foldl_nil, List.map_cons, List.map_nil, List.sum_cons,
      List.sum_nil, Nat.add_zero, Nat.mod_eq_of_lt hv]
    rfl
  · rw [applyRecord_foldl_some n (newUser n v) vs h]
    apply congrArg
    simp only [UserResponse.mk.injEq]
    refine ⟨rfl, rfl, rfl, ?_, ?_⟩
    · show ((newUser n v).total_contributions +
          (vs.map (fun c => c.contributions)).sum) % U32 =
        ((v :: vs).map (fun c => c.contributions)).sum % U32
      rw [show (newUser n v).total_contributions = v.contributions from rfl]
      simp only [List.map_cons, List.sum_cons]
    · show (if ((newUser n v).repositories.contains n)
          then (newUser n v).repositories
          else (newUser n v).repositories ++ [n]) = [n]
      rw [show (newUser n v).repositories = [n] from rfl]
      rw [if_pos (by rw [contains_iff_mem]; exact List.mem_singleton_self n)]

theorem nodup_logins_foldl (n : String) (cs : List Contributor)
    (m : List UserResponse) (h : (m.map (fun u => u.login)).Nodup) :
    (((cs.foldl (insertContributor n) m)).map (fun u => u.login)).Nodup := by
  induction cs generalizing m with
  | nil => exact h
  | cons c cs ih =>
    rw [List.foldl_cons]
    exact ih (insertContributor n m c) (nodup_logins_insert n m c h)

theorem nodup_logins_processRepo (m : List UserResponse) (p : RepoFetch)
    (h : (m.map (fun u => u.login)).Nodup) :
    ((processRepo m p).map (fun u => u.login)).Nodup := by
  obtain ⟨n0, oc⟩ := p
  cases oc with
  | none => exact h
  | some cs => exact nodup_logins_foldl n0 cs m h

theorem nodup_logins_aggregate (repos : List RepoFetch) :
    ((aggregateUsers repos).map (fun u => u.login)).Nodup := by
  have hgen : ∀ (rs : List RepoFetch) (m : List UserResponse),
      (m.map (fun u => u.login)).Nodup →
      ((rs.foldl processRepo m).map (fun u => u.login)).Nodup := by
    intro rs
    induction rs with
    | nil => exact fun m h => h
    | cons p ps ih =>
      intro m h
      rw [List.foldl_cons]
      exact ih (processRepo m p) (nodup_logins_processRepo m p h)
  exact hgen repos [] List.nodup_nil

theorem entryFor_of_mem (m : List UserResponse) (u : UserResponse)
    (hm : u ∈ m) (h : (m.map (fun x => x.login)).Nodup) :
    entryFor u.login m = some u := by
  induction m with
  | nil => cases hm
  | cons a t ih =>
    rw [List.map_cons, List.nodup_cons] at h
    rcases List.mem_cons.mp hm with rfl | hmt
    · unfold entryFor
      exact List.find?_cons_of_pos t (beq_self_eq_true u.login)
    · have hne : ¬ ((fun x : UserResponse => x.login == u.login) a) = true := by
        intro he
        exact h.1 ((beq_iff_eq.mp he) ▸ List.mem_map_of_mem
          (fun x : UserResponse => x.login) hmt)
      unfold entryFor
      rw [List.find?_cons_of_neg t hne]
      exact ih hmt h.2

theorem contribOf_eq_zero (L : String) (oc : Option (List Contributor))
    (h : hasLoginB L oc = false) : contribOf L oc = 0 := by
  cases oc with
  | none => rfl
  | some cs =>
    show ((cs.filter (fun c => c.login == L)).map
      (fun c => c.contributions)).sum = 0
    have : cs.filter (fun c => c.login == L) = [] := by
      rw [List.filter_eq_nil_iff]
      intro c hc hcl
      rw [show hasLoginB L (some cs) = cs.any (fun c => c.login == L) from rfl]
        at h
      exact absurd (List.any_eq_true.mpr ⟨c, hc, hcl⟩) (by rw [h]; simp)
    rw [this]
    rfl

theorem contains_append_singleton (l : List String) (a b : String) :
    ((l ++ [a]).contains b) = (l.contains b || (a == b)) := by
  by_cases h1 : b ∈ l
  · rw [(contains_iff_mem l b).mpr h1,
      (contains_iff_mem _ b).mpr (List.mem_append_left _ h1)]
    rfl
  · rw [(contains_false_iff l b).mpr h1]
    by_cases h2 : a = b
    · subst h2
      rw [(contains_iff_mem _ _).mpr
        (List.mem_append_right _ (List.mem_singleton_self a)),
        beq_self_eq_true a]
      rfl
    · rw [(contains_false_iff _ _).mpr (fun hm => by
        rcases List.mem_append.mp hm with h | h
        · exact h1 h
        · exact h2 (List.mem_singleton.mp h).symm),
        beq_eq_false_iff_ne.mpr h2]
      rfl

theorem contains_singleton (a b : String) :
    (([a] : List String).contains b) = (a == b) := by
  have h := contains_append_singleton [] a b
  simpa using h

theorem sumOf_append_singleton (L : String) (ps : List RepoFetch)
    (p : RepoFetch) :
    sumOf L (ps ++ [p]) = sumOf L ps + contribOf L p.2 := by
  unfold sumOf
  rw [List.map_append, List.sum_append]
  simp

theorem inRepoB_append_singleton (L n : String) (ps : List RepoFetch)
    (p : RepoFetch) :
    inRepoB L n (ps ++ [p]) =
      (inRepoB L n ps || ((p.1 == n) && hasLoginB L p.2)) := by
  unfold inRepoB
  rw [List.any_append]
  simp

/-- Per-login characterization of the whole aggregation fold: a login
either has no entry (and no contributions anywhere), or its entry carries
the wrapped sum of its contributions and exactly the names of the
successfully fetched repositories in which it appears. -/
theorem aggregate_entry (repos : List RepoFetch)
    (hwf : ∀ p ∈ repos, ∀ cs, p.2 = some cs → ∀ c ∈ cs, c.contributions < U32)
    (L : String) :
    (entryFor L (aggregateUsers repos) = none ∧ sumOf L repos = 0 ∧
      ∀ n, inRepoB L n repos = false) ∨
    (∃ u, entryFor L (aggregateUsers repos) = some u ∧ u.login = L ∧
      u.total_contributions = sumOf L repos % U32 ∧ u.repositories.Nodup ∧
      ∀ n, u.repositories.contains n = inRepoB L n repos) := by
  induction repos using List.reverseRecOn with
  | nil => exact Or.inl ⟨rfl, rfl, fun n => rfl⟩
  | append_singleton ps p ih =>
    have hwf2 : ∀ q ∈ ps, ∀ cs, q.2 = some cs → ∀ c ∈ cs,
        c.contributions < U32 :=
      fun q hq => hwf q (List.mem_append_left _ hq)
    specialize ih hwf2
    have hagg : aggregateUsers (ps ++ [p]) =
        processRepo (aggregateUsers ps) p := by
      unfold aggregateUsers
      rw [List.foldl_append]
      rfl
    obtain ⟨n0, oc⟩ := p
    cases oc with
    | none =>
      rcases ih with ⟨hu1, hu2, hu3⟩ | ⟨u, hu1, hu2, hu3, hu4, hu5⟩
      · left
        refine ⟨by rw [hagg]; exact hu1, ?_, ?_⟩
        · rw [sumOf_append_singleton, hu2]
          rfl
        · intro n
          rw [inRepoB_append_singleton, hu3 n]
          simp [hasLoginB]
      · right
        refine ⟨u, by rw [hagg]; exact hu1, hu2, ?_, hu4, ?_⟩
        · rw [sumOf_append_singleton]
          show u.total_contributions = (sumOf L ps + 0) % U32
          rw [Nat.add_zero]
          exact hu3
        · intro n
          rw [inRepoB_append_singleton]
          show u.repositories.contains n =
            (inRepoB L n ps || ((n0 == n) && false))
          rw [Bool.and_false, Bool.or_false]
          exact hu5 n
    | some cs =>
      have hfold : entryFor L (aggregateUsers (ps ++ [(n0, some cs)])) =
          (cs.filter (fun c => c.login == L)).foldl (applyRecord n0)
            (entryFor L (aggregateUsers ps)) := by
        rw [hagg]
        exact entryFor_foldl_insert n0 cs (aggregateUsers ps) L
      have hwfcs : ∀ c ∈ cs, c.contributions < U32 :=
        hwf (n0, some cs)
          (List.mem_append_right _ (List.mem_singleton_self _)) cs rfl
      have hsum : sumOf L (ps ++ [(n0, some cs)]) = sumOf L ps +
          ((cs.filter (fun c => c.login == L)).map
            (fun c => c.contributions)).sum := by
        rw [sumOf_append_singleton]
        rfl
      have hin : ∀ n, inRepoB L n (ps ++ [(n0, some cs)]) =
          (inRepoB L n ps || ((n0 == n) && cs.any (fun c => c.login == L))) := by
        intro n
        rw [inRepoB_append_singleton]
        rfl
      by_cases hempty : cs.filter (fun c => c.login == L) = []
      · have hany : cs.any (fun c => c.login == L) = false := by
          cases hb : cs.any (fun c => c.login == L) with
          | false => rfl
          | true =>
            obtain ⟨c, hc, hcl⟩ := List.any_eq_true.mp hb
            have hmem : c ∈ cs.filter (fun c => c.login == L) :=
              List.mem_filter.mpr ⟨hc, hcl⟩
            rw [hempty] at hmem
            cases hmem
        have hsum0 : ((cs.filter (fun c => c.login == L)).map
            (fun c => c.contributions)).sum = 0 := by
          rw [hempty]
          rfl
        rw [hempty] at hfold
        simp only [List.foldl_nil] at hfold
        rcases ih with ⟨hu1, hu2, hu3⟩ | ⟨u, hu1, hu2, hu3, hu4, hu5⟩
        · left
          refine ⟨by rw [hfold]; exact hu1, ?_, ?_⟩
          · rw [hsum, hu2, hsum0]
          · intro n
            rw [hin n, hu3 n, hany, Bool.and_false, Bool.or_false]
        · right
          refine ⟨u, by rw [hfold]; exact hu1, hu2, ?_, hu4, ?_⟩
          · rw [hsum, hsum0, Nat.add_zero]
            exact hu3
          · intro n
            rw [hin n, hany, Bool.and_false, Bool.or_false]
            exact hu5 n
      · have hany : cs.any (fun c => c.login == L) = true := by
          obtain ⟨c, cs2, hc⟩ := List.exists_cons_of_ne_nil hempty
          have hcmem : c ∈ cs.filter (fun c => c.login == L) :=
            hc ▸ List.mem_cons_self c cs2
          have hcm := List.mem_filter.mp hcmem
          exact List.any_eq_true.mpr ⟨c, hcm.1, hcm.2⟩
        rcases ih with ⟨hu1, hu2, hu3⟩ | ⟨u, hu1, hu2, hu3, hu4, hu5⟩
        · right
          obtain ⟨v, vs2, hv⟩ := List.exists_cons_of_ne_nil hempty
          have hvmem := List.mem_filter.mp
            (hv ▸ List.mem_cons_self v vs2)
          have hvlt : v.contributions < U32 := hwfcs v hvmem.1
          have hfold2 : entryFor L (aggregateUsers (ps ++ [(n0, some cs)])) =
              some { login := v.login, avatar_url := v.avatar_url,
                     profile_url := v.html_url,
                     total_contributions := ((v :: vs2).map
                       (fun c => c.contributions)).sum % U32,
                     repositories := [n0] } := by
            rw [hfold, hu1, hv]
            exact applyRecord_foldl_none n0 v vs2 hvlt
          refine ⟨_, hfold2, beq_iff_eq.mp hvmem.2, ?_,
            List.nodup_singleton n0, ?_⟩
          · show ((v :: vs2).map (fun c => c.contributions)).sum % U32 =
              sumOf L (ps ++ [(n0, some cs)]) % U32
            rw [hsum, hu2, Nat.zero_add, hv]
          · intro n
            show (([n0] : List String).contains n) =
              inRepoB L n (ps ++ [(n0, some cs)])
            rw [contains_singleton, hin n, hu3 n, hany, Bool.and_true,
              Bool.false_or]
        · right
          have hfold2 : entryFor L (aggregateUsers (ps ++ [(n0, some cs)])) =
              some { login := u.login, avatar_url := u.avatar_url,
                     profile_url := u.profile_url,
                     total_contributions := (u.total_contributions +
                       ((cs.filter (fun c => c.login == L)).map
                         (fun c => c.contributions)).sum) % U32,
                     repositories :=
                       if u.repositories.contains n0 then u.repositories
                       else u.repositories ++ [n0] } := by
            rw [hfold, hu1]
            exact applyRecord_foldl_some n0 u _ hempty
          refine ⟨_, hfold2, hu2, ?_, ?_, ?_⟩
          · show (u.total_contributions +
                ((cs.filter (fun c => c.login == L)).map
                  (fun c => c.contributions)).sum) % U32 =
              sumOf L (ps ++ [(n0, some cs)]) % U32
            rw [hsum, hu3, Nat.mod_add_mod]
          · show (if u.repositories.contains n0 then u.repositories
              else u.repositories ++ [n0]).Nodup
            by_cases hb : u.repositories.contains n0 = true
            · rw [if_pos hb]
              exact hu4
            · rw [if_neg hb]
              have hno : n0 ∉ u.repositories :=
                (contains_false_iff _ _).mp (bool_eq_false_of_not_true hb)
              exact ((List.perm_append_singleton n0 _).nodup_iff).mpr
                (List.nodup_cons.mpr ⟨hno, hu4⟩)
          · intro n
            show (if u.repositories.contains n0 then u.repositories
              else u.repositories ++ [n0]).contains n =
              inRepoB L n (ps ++ [(n0, some cs)])
            rw [hin n, hany, Bool.and_true]
            by_cases hb : u.repositories.contains n0 = true
            · rw [if_pos hb]
              by_cases heq : n0 = n
              · subst heq
                rw [hb, beq_self_eq_true, Bool.or_true]
              · rw [beq_eq_false_iff_ne.mpr heq, Bool.or_false]
                exact hu5 n
            · rw [if_neg hb, contains_append_singleton, hu5 n]

theorem sum_map_filter_eq (P : RepoFetch → Bool) (f : RepoFetch → Nat)
    (l : List RepoFetch) (h : ∀ p ∈ l, P p = false → f p = 0) :
    ((l.filter P).map f).sum = (l.map f).sum := by
  induction l with
  | nil => rfl
  | cons p ps ih =>
    have ih2 := ih (fun q hq => h q (List.mem_cons_of_mem _ hq))
    rw [List.filter_cons]
    by_cases hp : P p = true
    · rw [if_pos hp]
      simp only [List.map_cons, List.sum_cons]
      rw [ih2]
    · have hf : P p = false := bool_eq_false_of_not_true hp
      rw [if_neg (by simp [hf])]
      simp only [List.map_cons, List.sum_cons]
      rw [h p (List.mem_cons_self p ps) hf, Nat.zero_add, ih2]

theorem contribOf_le_allContrib (L : String) (oc : Option (List Contributor)) :
    contribOf L oc ≤ allContrib oc := by
  cases oc with
  | none => exact Nat.le_refl 0
  | some cs =>
    show ((cs.filter (fun c => c.login == L)).map
        (fun c => c.contributions)).sum ≤
      (cs.map (fun c => c.contributions)).sum
    exact List.Sublist.sum_le_sum
      ((List.filter_sublist cs).map (fun c => c.contributions))
      (fun a _ => Nat.zero_le a)

theorem sumOf_le_totalInput (L : String) (repos : List RepoFetch) :
    sumOf L repos ≤ totalInput repos :=
  List.sum_le_sum (fun p _ => contribOf_le_allContrib L p.2)

theorem wf_of_totalInput (repos : List RepoFetch)
    (h : totalInput repos < U32) :
    ∀ p ∈ repos, ∀ cs, p.2 = some cs → ∀ c ∈ cs, c.contributions < U32 := by
  intro p hp cs hcs c hc
  have h1 : c.contributions ≤ allContrib (some cs) :=
    List.single_le_sum (fun x _ => Nat.zero_le x) _
      (List.mem_map_of_mem (fun c => c.contributions) hc)
  have h2 : allContrib p.2 ≤ totalInput repos :=
    List.single_le_sum (fun x _ => Nat.zero_le x) _
      (List.mem_map_of_mem (fun p => allContrib p.2) hp)
  rw [hcs] at h2
  exact Nat.lt_of_le_of_lt (Nat.le_trans h1 h2) h

/-- C1: every aggregate produced by the fleet-mode aggregation of
get_sui_move_users has total_contributions equal to the sum of the
contributions contributed by exactly the repositories listed in its
repositories vector, and that vector has no duplicates.  The repository
fetch list is universally quantified, so the statement holds for every
ordering of repository processing (the HashSet iteration order is
arbitrary); the hypothesis asks only that the total contribution volume
fits in a u32, which every run with genuine u32 inputs that does not
overflow satisfies. -/
theorem c1_total_contributions_invariant (limit : Nat)
    (fetches : List RepoFetch)
    (hsum : totalInput (fetches.take (limit * 2)) < U32) :
    ∀ u ∈ fleetAggregates limit fetches,
      u.total_contributions =
        (((fetches.take (limit * 2)).filter
            (fun p => u.repositories.contains p.1)).map
          (fun p => contribOf u.login p.2)).sum ∧
      u.repositories.Nodup := by
  intro u hu
  have hwf := wf_of_totalInput (fetches.take (limit * 2)) hsum
  have hnd := nodup_logins_aggregate (fetches.take (limit * 2))
  have hentry : entryFor u.login (aggregateUsers (fetches.take (limit * 2))) =
      some u := entryFor_of_mem _ u hu hnd
  rcases aggregate_entry (fetches.take (limit * 2)) hwf u.login with
    ⟨h1, _, _⟩ | ⟨u2, h1, _, h3, h4, h5⟩
  · rw [hentry] at h1
    cases h1
  · rw [hentry] at h1
    injection h1 with h1
    subst h1
    refine ⟨?_, h4⟩
    have hz : ∀ p ∈ fetches.take (limit * 2),
        (u.repositories.contains p.1) = false →
        contribOf u.login p.2 = 0 := by
      intro p hp hc
      have hR : inRepoB u.login p.1 (fetches.take (limit * 2)) = false := by
        rw [← h5 p.1]
        exact hc
      apply contribOf_eq_zero
      cases hb : hasLoginB u.login p.2 with
      | false => rfl
      | true =>
        have htrue : inRepoB u.login p.1 (fetches.take (limit * 2)) = true :=
          List.any_eq_true.mpr ⟨p, hp, by rw [beq_self_eq_true, hb]; rfl⟩
        rw [htrue] at hR
        cases hR
    rw [sum_map_filter_eq _ _ _ hz]
    have hle := sumOf_le_totalInput u.login (fetches.take (limit * 2))
    have hlt := Nat.lt_of_le_of_lt hle hsum
    rw [show ((fetches.take (limit * 2)).map
        (fun p => contribOf u.login p.2)).sum =
      sumOf u.login (fetches.take (limit * 2)) from rfl]
    rw [h3, Nat.mod_eq_of_lt hlt]

/-- Witness for C1: alice contributes 5 to repoA and 3 to repoB; her
aggregate (total 8 over repositories repoA and repoB, an element of the
fleet aggregation of that scenario) satisfies the invariant. -/
theorem c1_witness :
    c1Alice.total_contributions =
      (((c1Fetches.take (2 * 2)).filter
          (fun p => c1Alice.repositories.contains p.1)).map
        (fun p => contribOf c1Alice.login p.2)).sum ∧
    c1Alice.repositories.Nodup :=
  c1_total_contributions_invariant 2 c1Fetches (by decide) c1Alice (by decide)

-- ------------------- C3: fleet-mode result shaping -------------------

/-- C3 counterexample: HashMap::into_values yields the aggregates in an
unspecified order, and the stable sort leaves ties in that order, not in
discovery order.  With alice discovered before bob and both tied at 5
contributions, the reversed iteration order (a permutation of the map
contents) produces a result different from the stable sort of the
discovery order, so ties are not broken by discovery order. -/
theorem c3_counterexample :
    ((fleetAggregates 2 c3Fetches).reverse).Perm (fleetAggregates 2 c3Fetches) ∧
    fleetSortTrunc 2 ((fleetAggregates 2 c3Fetches).reverse) ≠
      fleetSortTrunc 2 (fleetAggregates 2 c3Fetches) :=
  ⟨List.reverse_perm _, by decide⟩

/-- C3 amended: whatever order the map values are yielded in, the result
is sorted by total_contributions descending (stable with respect to that
order), has length min(limit, number of unique contributors), and is a
prefix of a permutation of the aggregates; when fewer unique contributors
exist than the requested limit the result has exactly that smaller
length. -/
theorem c3_sorted_truncated (limit : Nat) (fetches : List RepoFetch)
    (values : List UserResponse)
    (hperm : values.Perm (fleetAggregates limit fetches)) :
    SortedDescBy (fun u => u.total_contributions)
      (fleetSortTrunc limit values) ∧
    (fleetSortTrunc limit values).length =
      min limit (fleetAggregates limit fetches).length ∧
    ∃ rest, ((fleetSortTrunc limit values) ++ rest).Perm
      (fleetAggregates limit fetches) := by
  refine ⟨?_, ?_, ?_⟩
  · unfold fleetSortTrunc SortedDescBy
    exact List.Pairwise.sublist (List.take_sublist _ _)
      (sortDescBy_sorted (fun u : UserResponse => u.total_contributions) values)
  · show ((sortDescBy (fun u => u.total_contributions) values).take
      limit).length = _
    rw [List.length_take, sortDescBy_length, hperm.length_eq]
  · refine ⟨(sortDescBy (fun u => u.total_contributions) values).drop limit, ?_⟩
    show ((sortDescBy (fun u => u.total_contributions) values).take limit ++
      (sortDescBy (fun u => u.total_contributions) values).drop limit).Perm _
    rw [List.take_append_drop]
    exact (sortDescBy_perm _ _).trans hperm

/-- Witness for C3 amended: the reversed iteration order of the tied
two-user scenario still gives a sorted result of length 2 that is a prefix
of a permutation of the aggregates. -/
theorem c3_witness :
    SortedDescBy (fun u => u.total_contributions)
      (fleetSortTrunc 2 ((fleetAggregates 2 c3Fetches).reverse)) ∧
    (fleetSortTrunc 2 ((fleetAggregates 2 c3Fetches).reverse)).length =
      min 2 (fleetAggregates 2 c3Fetches).length ∧
    ∃ rest, ((fleetSortTrunc 2 ((fleetAggregates 2 c3Fetches).reverse)) ++
      rest).Perm (fleetAggregates 2 c3Fetches) :=
  c3_sorted_truncated 2 c3Fetches ((fleetAggregates 2 c3Fetches).reverse)
    (List.reverse_perm _)
